import Mathlib

/-!
Verification of the record-store and risk-inference core of the
junction2025 repository. Definitions are shallow embeddings of the
TypeScript source:

* `Decision` — the decision-tree evaluator, shipped model, trend analyzer
  and explanation engine of `src/lib/permissions.ts` and
  `src/internal/decision/index.ts`.
* `Storage` — the record engine of `src/internal/storage/index.ts`.
* `RiskMeter` — the driver-ranking function `computeTopDrivers` of the
  RiskMeter component.

JavaScript numbers are modelled as `Option ℚ`: `some q` is the finite
number `q`, `none` stands for a non-finite value (`NaN`, `Infinity`) or a
missing (`undefined`) field. Comparisons against `none` are `false`, as
JS comparisons with `NaN`/`undefined` are, and arithmetic propagates
`none`, as JS arithmetic propagates `NaN`.
-/

/-- JS number: a finite rational, or `none` for NaN / Infinity / undefined. -/
abbrev JNum := Option ℚ

/-- JS `a + b`: NaN propagates. -/
def jadd (a b : JNum) : JNum :=
  match a, b with
  | some x, some y => some (x + y)
  | _, _ => none

/-- JS `a - b`: NaN propagates. -/
def jsub (a b : JNum) : JNum :=
  match a, b with
  | some x, some y => some (x - y)
  | _, _ => none

/-- JS `a * b`: NaN propagates. -/
def jmul (a b : JNum) : JNum :=
  match a, b with
  | some x, some y => some (x * y)
  | _, _ => none

/-- JS `a / b`: NaN propagates, and a zero denominator yields a
non-finite value (NaN or an infinity), modelled as `none`. -/
def jdiv (a b : JNum) : JNum :=
  match a, b with
  | some x, some y => if y = 0 then none else some (x / y)
  | _, _ => none

/-- JS `a <= b`: false whenever either side is NaN or undefined. -/
def jle (a b : JNum) : Bool :=
  match a, b with
  | some x, some y => decide (x ≤ y)
  | _, _ => false

/-- JS `a < b`: false whenever either side is NaN or undefined. -/
def jlt (a b : JNum) : Bool :=
  match a, b with
  | some x, some y => decide (x < y)
  | _, _ => false

/-- JS `Math.abs`. -/
def jabs (a : JNum) : JNum := a.map (fun x => |x|)

/-- JS `Math.round`: round half toward positive infinity. -/
def jround (a : JNum) : JNum := a.map (fun x => ((⌊x + 1 / 2⌋ : ℤ) : ℚ))

/-- JS `Math.max`: NaN whenever an argument is NaN. -/
def jmax (a b : JNum) : JNum :=
  match a, b with
  | some x, some y => some (max x y)
  | _, _ => none

/-- JS `Math.min`: NaN whenever an argument is NaN. -/
def jmin (a b : JNum) : JNum :=
  match a, b with
  | some x, some y => some (min x y)
  | _, _ => none

/-- Branch taken at a split node. -/
inductive Direction where
  | left
  | right
  deriving DecidableEq, Repr

/-- Trend classification of a feature. -/
inductive TrendClass where
  | increasing
  | decreasing
  | stable
  deriving DecidableEq, Repr

namespace Decision

/-- A record of daily features, as the `GeneralData`-shaped samples given
to the evaluator: a lookup from field name to its numeric value, `none`
when the field is absent or not a number. -/
abbrev Sample := String → JNum

/-- Decision tree node: the JSON asset is either a leaf carrying a class
distribution `value: [neg, pos]` or a split carrying `feature`,
`threshold`, `left`, `right`. -/
inductive DecisionNode where
  | leaf (neg pos : ℚ)
  | split (feature : String) (threshold : ℚ) (left right : DecisionNode)
  deriving DecidableEq, Repr

/-- The `Feature` interface of `src/lib/permissions.ts`: one observation
pushed for every split visited. The value is the raw record field, so it
can be `none` when the record lacks the feature. -/
structure FeatureObservation where
  label : String
  value : JNum
  threshold : ℚ
  direction : Direction
  deriving DecidableEq, Repr

/-- The evaluator `predictWithTree` of `src/lib/permissions.ts` (lines
434-457). Returns the leaf score `pos / (neg + pos)` together with the
list of observations pushed along the way. The source compares
`featureValue <= tree.threshold`, which is false for a missing value, so
a missing feature silently routes to the right child. -/
def predictWithTree (tree : DecisionNode) (sample : Sample) :
    JNum × List FeatureObservation :=
  match tree with
  | .leaf neg pos => (jdiv (some pos) (some (neg + pos)), [])
  | .split feature threshold l r =>
      let featureValue := sample feature
      let direction := if jle featureValue (some threshold) then Direction.left
        else Direction.right
      let obs : FeatureObservation :=
        ⟨feature, featureValue, threshold, direction⟩
      let rest := if jle featureValue (some threshold) then
          predictWithTree l sample
        else predictWithTree r sample
      (rest.1, obs :: rest.2)

/-- Number of split nodes visited by the traversal of `predictWithTree`. -/
def splitsVisited (tree : DecisionNode) (sample : Sample) : Nat :=
  match tree with
  | .leaf _ _ => 0
  | .split feature threshold l r =>
      1 + (if jle (sample feature) (some threshold) then splitsVisited l sample
        else splitsVisited r sample)

/-- Leaf well-formedness: every leaf carries nonnegative counts with a
positive sum, so its score `pos / (neg + pos)` is a finite number in
`[0, 1]`. -/
def wfLeaves (tree : DecisionNode) : Bool :=
  match tree with
  | .leaf neg pos => decide (0 ≤ neg) && decide (0 ≤ pos) && decide (0 < neg + pos)
  | .split _ _ l r => wfLeaves l && wfLeaves r

/-- The shipped pre-trained tree `model` of
`src/internal/decision/model` (lines 251-376 of the concatenated
source), transcribed literally. -/
def model : DecisionNode :=
  .split "sleep_hours" 7.198521375656128
    (.split "prodrome_symptoms" 0.5
      (.split "screen_time_hours" 6.668567180633545
        (.split "sleep_hours" 6.96010160446167
          (.split "attacks_last_30_days" 9.5
            (.leaf 0.9375 0.0625)
            (.leaf 0.68 0.32))
          (.split "screen_time_hours" 4.574069499969482
            (.leaf 0.0 1.0)
            (.leaf 0.6666666666666666 0.3333333333333333)))
        (.split "sleep_hours" 5.0495030879974365
          (.leaf 0.6666666666666666 0.3333333333333333)
          (.split "stress_level" 0.5
            (.leaf 0.3333333333333333 0.6666666666666666)
            (.leaf 0.0 1.0))))
      (.leaf 0.0 1.0))
    (.split "sleep_hours" 9.695796966552734
      (.split "days_since_last_attack" 9.5
        (.split "attacks_last_7_days" 5.5
          (.split "hydration_low" 0.5
            (.leaf 1.0 0.0)
            (.leaf 0.8571428571428571 0.14285714285714285))
          (.leaf 0.3333333333333333 0.6666666666666666))
        (.leaf 0.3333333333333333 0.6666666666666666))
      (.leaf 0.25 0.75))

/-- The record of the worked example in the spec: `sleep_hours = 5.0`,
`prodrome_symptoms = 0`, `screen_time_hours = 3.0`,
`attacks_last_30_days = 2`; other fields absent. -/
def sampleExample : Sample := fun f =>
  if f = "sleep_hours" then some 5
  else if f = "prodrome_symptoms" then some 0
  else if f = "screen_time_hours" then some 3
  else if f = "attacks_last_30_days" then some 2
  else none

/-- The empty record: every feature missing. -/
def sampleEmpty : Sample := fun _ => none

/-- Iteration order of `new Set(array)`: each element at its first
occurrence. -/
def insertionDedup (xs : List String) : List String :=
  xs.foldl (fun acc x => if x ∈ acc then acc else acc ++ [x]) []

/-- The `Trend` interface of `src/lib/permissions.ts`. -/
structure Trend where
  feature : String
  current : JNum
  average : JNum
  trend : TrendClass
  changePercent : JNum
  deriving DecidableEq, Repr

/-- Body of the per-feature loop of `calculateTrends` (lines 503-541 of
`src/lib/permissions.ts`): the trend pushed for one feature name. -/
def trendFor (current : Sample) (historical : List Sample)
    (featureName : String) : Trend :=
  let currentValue := current featureName
  let historicalValue := (historical.map (fun h => h featureName)).filterMap id
  if historicalValue.length = 0 then
    { feature := featureName, current := currentValue, average := currentValue,
      trend := .stable, changePercent := some 0 }
  else
    let average : ℚ := historicalValue.sum / historicalValue.length
    let changePercent : JNum :=
      if average ≠ 0 then
        jmul (jdiv (jsub currentValue (some average)) (some |average|)) (some 100)
      else some 0
    let trend : TrendClass :=
      if jlt (jabs changePercent) (some 5) then .stable
      else if jlt (some 0) changePercent then .increasing
      else .decreasing
    { feature := featureName, current := currentValue, average := some average,
      trend := trend,
      changePercent := jdiv (jround (jmul changePercent (some 10))) (some 10) }

/-- The trend analyzer `calculateTrends` of `src/lib/permissions.ts`
(lines 485-544): with an empty historical window every observation maps
to a stable trend; otherwise one trend per unique feature label of the
path. -/
def calculateTrends (current : Sample) (historical : List Sample)
    (features : List FeatureObservation) : List Trend :=
  if historical.length = 0 then
    features.map (fun f =>
      { feature := f.label, current := f.value, average := f.value,
        trend := .stable, changePercent := some 0 })
  else
    (insertionDedup (features.map (fun f => f.label))).map
      (trendFor current historical)

/-- Scaling transformation of the translation-invariance property: the
record with feature `f` multiplied by `k` and all other fields intact. -/
def scaleAt (f : String) (k : ℚ) (s : Sample) : Sample :=
  fun g => if g = f then (s g).map (fun v => k * v) else s g

/-- The `featureDescriptions` lookup of `generateExplanation`. -/
def featureDescription (label : String) : String :=
  if label = "sleep_hours" then "sleep hours"
  else if label = "screen_time_hours" then "screen time"
  else if label = "prodrome_symptoms" then "prodrome symptoms"
  else if label = "stress_level" then "stress level"
  else if label = "attacks_last_7_days" then "recent attacks (7 days)"
  else if label = "attacks_last_30_days" then "recent attacks (30 days)"
  else if label = "days_since_last_attack" then "days since last attack"
  else if label = "hydration_low" then "low hydration"
  else if label = "skipped_meal" then "skipped meals"
  else if label = "bright_light_exposure" then "bright light exposure"
  else if label = "pressure_drop" then "pressure drop"
  else label

/-- JS `toFixed(1)` on a finite value; rounding-mode corner cases are not
distinguished by any value this program formats. -/
def ratToFixed1 (q : ℚ) : String :=
  let n : ℤ := ⌊q * 10 + 1 / 2⌋
  let a := n.natAbs
  (if n < 0 then "-" else "") ++ toString (a / 10) ++ "." ++ toString (a % 10)

/-- JS `toFixed(1)` on a possibly missing value; the guards of
`generateExplanation` only format present values. -/
def jToFixed1 (v : JNum) : String :=
  match v with
  | some q => ratToFixed1 q
  | none => "NaN"

/-- JS template interpolation of a raw number; every value interpolated
raw by `generateExplanation` is an integer count. -/
def jnumStr (v : JNum) : String :=
  match v with
  | some q => if q.den = 1 then toString q.num else ratToFixed1 q
  | none => "undefined"

/-- Per-feature problem analysis of the key-factor loop of
`generateExplanation` (lines 573-643 of `src/lib/permissions.ts`):
`some reason` exactly when the branch sets `isProblematic`. -/
def keyFactorReason (f : FeatureObservation) : Option String :=
  if f.label = "sleep_hours" then
    if jle f.value (some f.threshold) then
      some ("You\x27re getting only " ++ jToFixed1 f.value ++
        " hours of sleep, below the recommended " ++ ratToFixed1 f.threshold ++
        " hours")
    else none
  else if f.label = "screen_time_hours" then
    if jlt (some f.threshold) f.value then
      some ("Your screen time is " ++ jToFixed1 f.value ++
        " hours, above the recommended " ++ ratToFixed1 f.threshold ++ " hours")
    else none
  else if f.label = "prodrome_symptoms" then
    if jlt (some f.threshold) f.value then
      some "You\x27re experiencing prodrome symptoms"
    else none
  else if f.label = "stress_level" then
    if jlt (some f.threshold) f.value then
      some "Your stress level appears elevated"
    else none
  else if f.label = "attacks_last_7_days" ∨ f.label = "attacks_last_30_days" then
    if jlt (some f.threshold) f.value then
      some ("You\x27ve had " ++ jnumStr f.value ++ " " ++
        (if f.label = "attacks_last_7_days" then "recent" else "") ++ " attacks")
    else none
  else if f.label = "days_since_last_attack" then
    if jle f.value (some f.threshold) then
      some ("It has been " ++ jnumStr f.value ++ " days since your last attack")
    else none
  else if f.label = "hydration_low" then
    if jlt (some f.threshold) f.value then
      some "You\x27re experiencing low hydration"
    else none
  else none

/-- Trend sentence appended after a problematic key factor when the
matching trend moved by more than 10 percent. -/
def keyFactorTrendNote (trends : List Trend) (f : FeatureObservation) :
    List String :=
  match trends.find? (fun t => t.feature == f.label) with
  | some t =>
      if jlt (some 10) (jabs t.changePercent) then
        if t.trend = .increasing ∧ (f.label = "screen_time_hours" ∨
            f.label = "stress_level" ∨ f.label = "prodrome_symptoms") then
          ["Your " ++ featureDescription f.label ++
            " has increased compared to recent averages"]
        else if t.trend = .decreasing ∧ f.label = "sleep_hours" then
          ["Your " ++ featureDescription f.label ++
            " has decreased compared to recent averages"]
        else []
      else []
  | none => []

/-- The key-factor strings pushed while analyzing each path feature. -/
def explanationKeyFactors (features : List FeatureObservation)
    (trends : List Trend) : List String :=
  features.flatMap (fun f =>
    match keyFactorReason f with
    | some reason => reason :: keyFactorTrendNote trends f
    | none => [])

/-- The `problematicFeatures` filter predicate of the recommendation
loop of `generateExplanation` (lines 646-653). -/
def recProblematic (f : FeatureObservation) : Bool :=
  ((f.label == "sleep_hours") && jle f.value (some f.threshold)) ||
  ((f.label == "screen_time_hours") && jlt (some f.threshold) f.value) ||
  ((f.label == "prodrome_symptoms") && jlt (some f.threshold) f.value) ||
  ((f.label == "stress_level") && jlt (some f.threshold) f.value) ||
  ((f.label == "hydration_low") && jlt (some f.threshold) f.value)

/-- The recommendation string pushed for one problematic feature. -/
def recommendationFor (f : FeatureObservation) : Option String :=
  if f.label = "sleep_hours" then
    some ("Aim for at least " ++ ratToFixed1 f.threshold ++
      " hours of sleep per night")
  else if f.label = "screen_time_hours" then
    some ("Reduce screen time to below " ++ ratToFixed1 f.threshold ++
      " hours per day")
  else if f.label = "prodrome_symptoms" then
    some "Monitor and manage prodrome symptoms early"
  else if f.label = "stress_level" then
    some "Practice stress-reduction techniques"
  else if f.label = "hydration_low" then
    some "Increase your water intake throughout the day"
  else none

/-- The `Explanation` interface of `src/lib/permissions.ts`. -/
structure Explanation where
  summary : String
  keyFactors : List String
  trends : List Trend
  recommendations : List String
  deriving DecidableEq, Repr

/-- The explanation engine `generateExplanation` of
`src/lib/permissions.ts` (lines 549-685). -/
def generateExplanation (score : JNum) (features : List FeatureObservation)
    (trends : List Trend) : Explanation :=
  let factors := explanationKeyFactors features trends
  let recs := (features.filter recProblematic).filterMap recommendationFor
  let riskLevel :=
    if jle (some 0.7) score then "high"
    else if jle (some 0.4) score then "moderate"
    else "low"
  let summary := "Your migraine risk is " ++ riskLevel ++ ". " ++
    (if factors.length > 0 then
      "Main contributing factors: " ++
        String.intercalate ", " (factors.take 3) ++ "."
    else "Your current metrics are within normal ranges.")
  { summary := summary, keyFactors := factors, trends := trends,
    recommendations :=
      if recs.length > 0 then recs
      else ["Continue monitoring your health metrics"] }

/-- Feature observation as shaped by the `meta.features` mapping of the
prediction result. -/
structure FeatureOut where
  label : String
  value : JNum
  threshold : ℚ
  direction : Direction
  isAboveThreshold : Bool
  deriving DecidableEq, Repr

/-- The prediction result: `score` and the `meta` fields. The summary of
`generateExplanation` is never the empty string, so the
`explanation?.summary || ...` fallback of the source is the summary
itself. -/
structure PredictionResult where
  score : JNum
  explanation : String
  detailedExplanation : Explanation
  features : List FeatureOut
  trends : List Trend
  deriving DecidableEq, Repr

/-- The pipeline `predictMigraneRisk` of `src/lib/permissions.ts` (lines
687-722). The awaited `getHistoricalData` storage read is modelled by
the `historical` argument; with `includeTrends` false the source passes
the empty trend list to `generateExplanation`, as here. -/
def predictMigraneRisk (sample : Sample) (historical : List Sample)
    (includeTrends : Bool) : PredictionResult :=
  let r := predictWithTree model sample
  let score := r.1
  let features := r.2
  let trends :=
    if includeTrends then calculateTrends sample historical features else []
  let explanation := generateExplanation score features trends
  { score := score,
    explanation := explanation.summary,
    detailedExplanation := explanation,
    features := features.map (fun f =>
      { label := f.label, value := f.value, threshold := f.threshold,
        direction := f.direction,
        isAboveThreshold := f.direction = Direction.right }),
    trends := trends }

end Decision

namespace Storage

/-- JSON object payload: field names with numeric values, in insertion
order. -/
abbrev Obj := List (String × ℚ)

/-- JS property write on an object: override the field in place, or
append a new field. -/
def objSet (o : Obj) (k : String) (v : ℚ) : Obj :=
  if o.any (fun p => p.1 == k) then
    o.map (fun p => if p.1 = k then (k, v) else p)
  else o ++ [(k, v)]

/-- JS spread `\x7b ...existing.data, ...data \x7d`: the shallow merge
used by `update`. -/
def objMerge (base patch : Obj) : Obj :=
  patch.foldl (fun acc p => objSet acc p.1 p.2) base

/-- The `StoredItem` record of `src/internal/storage/index.ts`: payload
plus the two timestamps; the id is the key of the store. -/
structure StoredItem where
  data : Obj
  createdAt : ℕ
  updatedAt : ℕ
  deriving DecidableEq, Repr

/-- The database: for each store name (namespace) and id, the stored
item, if any. -/
abbrev DB := String → ℕ → Option StoredItem

/-- Typed failures of the record engine: `duplicateKey` is the
ConstraintError rejection of `create`, `notFound` the rejection of
`update` on a missing id. -/
inductive StorageError where
  | duplicateKey (ns : String) (id : ℕ)
  | notFound (ns : String) (id : ℕ)
  deriving DecidableEq, Repr

/-- IDB `store.put`: insert or overwrite at one key of one store. -/
def dbPut (db : DB) (ns : String) (id : ℕ) (item : StoredItem) : DB :=
  fun ns2 id2 => if ns2 = ns ∧ id2 = id then some item else db ns2 id2

/-- `read` (lines 412-428): the item, or `none` when absent. -/
def read (db : DB) (ns : String) (id : ℕ) : Option StoredItem := db ns id

/-- `readData` (lines 436-439): just the payload. -/
def readData (db : DB) (ns : String) (id : ℕ) : Option Obj :=
  (read db ns id).map (fun it => it.data)

/-- `create` (lines 344-371): IDB `store.add` rejects with a
ConstraintError when the key exists; the aborted transaction leaves the
database unchanged, so the pair carries the resulting state. -/
def create (db : DB) (ns : String) (id : ℕ) (data : Obj) (now : ℕ) :
    Except StorageError Unit × DB :=
  match db ns id with
  | some _ => (.error (.duplicateKey ns id), db)
  | none => (.ok (), dbPut db ns id ⟨data, now, now⟩)

/-- `upsert` (lines 379-404): reads the existing item to preserve
`createdAt` through `existing?.createdAt || now` (a zero `createdAt`
falls back to `now` by JS falsiness), then unconditionally puts. -/
def upsert (db : DB) (ns : String) (id : ℕ) (data : Obj) (now : ℕ) : DB :=
  let createdAt :=
    match db ns id with
    | some it => if it.createdAt = 0 then now else it.createdAt
    | none => now
  dbPut db ns id ⟨data, createdAt, now⟩

/-- `update` (lines 482-507): rejects with `notFound` when the id is
absent; otherwise shallow-merges the patch into the payload and bumps
`updatedAt`, keeping `createdAt`. -/
def update (db : DB) (ns : String) (id : ℕ) (patch : Obj) (now : ℕ) :
    Except StorageError Unit × DB :=
  match db ns id with
  | none => (.error (.notFound ns id), db)
  | some it => (.ok (), dbPut db ns id ⟨objMerge it.data patch, it.createdAt, now⟩)

/-- The empty database. -/
def dbEmpty : DB := fun _ _ => none

/-- A one-record database used by the storage witnesses. -/
def dbEx : DB := dbPut dbEmpty "general" 1 ⟨[("a", 1)], 5, 5⟩

end Storage

namespace RiskMeter

/-- The `Feature` type of the RiskMeter component. Its `value` field is
fed from `meta.features` of the prediction result, whose `value` is the
raw record field pushed by the evaluator, so it can be missing or NaN;
`threshold` comes from the tree nodes and is always a literal number. -/
structure Feature where
  label : String
  value : JNum
  threshold : ℚ
  direction : Direction
  deriving DecidableEq, Repr

/-- The `Trend` type of the RiskMeter component, fed from `meta.trends`
of the prediction result, whose numeric fields can be NaN. -/
structure Trend where
  feature : String
  current : JNum
  average : JNum
  trend : TrendClass
  changePercent : JNum
  deriving DecidableEq, Repr

/-- The `Driver` type: `score` is the normalized score. -/
structure Driver where
  label : String
  current : JNum
  threshold : ℚ
  direction : Direction
  score : JNum
  rawScore : JNum
  trend : Option Trend
  deriving DecidableEq, Repr

/-- Raw risk-aligned magnitude of one observation, with the
`Math.max(0.1, Math.abs(f.threshold || 0.1))` guard; a missing or NaN
value makes `Math.max(0, NaN)` NaN. -/
def magnitude (f : Feature) : JNum :=
  let t0 := if f.threshold = 0 then 0.1 else f.threshold
  let thresholdSafe := max 0.1 |t0|
  match f.direction with
  | .left => jmax (some 0) (jdiv (jsub (some f.threshold) f.value)
      (some thresholdSafe))
  | .right => jmax (some 0) (jdiv (jsub f.value (some f.threshold))
      (some thresholdSafe))

/-- One step of the dedup `Map` of `computeTopDrivers`: JS `map.set`
keeps the insertion position of an existing key and appends new keys;
the entry is replaced when `magnitude > existingMagnitude`, a comparison
that is false when either magnitude is NaN. -/
def dedupStep (m : List (String × Feature × JNum)) (f : Feature) :
    List (String × Feature × JNum) :=
  let mag := magnitude f
  match m.find? (fun p => p.1 == f.label) with
  | none => m ++ [(f.label, f, mag)]
  | some p =>
      if jlt p.2.2 mag then
        m.map (fun q => if q.1 = f.label then (f.label, f, mag) else q)
      else m

/-- The label-dedup pass of `computeTopDrivers`. -/
def dedupFeatures (fs : List Feature) : List (String × Feature × JNum) :=
  fs.foldl dedupStep []

/-- The trend weight of `computeTopDrivers`: 1.2 toward risk, 0.9 away,
amplified by 1.1 when the change exceeds 20 percent. The source reads
`Math.abs(t.changePercent || 0)`: NaN and 0 are both falsy, so a NaN
change counts as 0 and the weight is always a finite number. -/
def trendWeight (t : Option Trend) (dir : Direction) : ℚ :=
  match t with
  | none => 1
  | some t =>
      let w : ℚ :=
        if (t.trend = .decreasing ∧ dir = .left) ∨
            (t.trend = .increasing ∧ dir = .right) then 1.2
        else if (t.trend = .increasing ∧ dir = .left) ∨
            (t.trend = .decreasing ∧ dir = .right) then 0.9
        else 1
      if 20 < |t.changePercent.getD 0| then w * 1.1 else w

/-- The driver built from one dedup entry, before normalization. -/
def driverOf (trends : List Trend) (e : String × Feature × JNum) : Driver :=
  let f := e.2.1
  let base := magnitude f
  let t := trends.find? (fun tr => tr.feature == e.1)
  let raw := jmul base (some (trendWeight t f.direction))
  { label := e.1, current := f.value, threshold := f.threshold,
    direction := f.direction, score := raw, rawScore := raw, trend := t }

/-- Stable descending insertion by `score`, modelling the JS stable sort
with comparator `(a, b) => b.score - a.score`: a NaN comparator result
is treated as equal, so NaN scores keep their insertion order, as `jlt`
is false on NaN. -/
def insertDesc (d : Driver) : List Driver → List Driver
  | [] => [d]
  | e :: es =>
      if jlt e.score d.score then d :: e :: es else e :: insertDesc d es

/-- Stable descending sort by `score`. -/
def sortDesc (ds : List Driver) : List Driver :=
  ds.foldr insertDesc []

/-- The driver ranking `computeTopDrivers` of the RiskMeter component
(`src/unnamed/part_004` lines 74-135 and `src/unnamed/part_005` lines
77-146, identical logic). `Math.max(...raws, 0.000001)` and
`Math.min(1, raw / maxRaw)` propagate NaN, so one NaN magnitude poisons
every normalized score. -/
def computeTopDrivers (features : List Feature) (trends : List Trend) :
    List Driver :=
  if features.length = 0 then []
  else
    let m := dedupFeatures features
    let drivers := m.map (driverOf trends)
    let maxRaw := (drivers.map (fun d => d.rawScore)).foldr jmax (some 0.000001)
    let normalized :=
      drivers.map (fun d => { d with score := jmin (some 1) (jdiv d.rawScore maxRaw) })
    (sortDesc normalized).take 3

end RiskMeter

namespace Decision

/-- An observation with a duplicated label, for the duplicate-label
counterexample of the trend analyzer. -/
def obsSleep : FeatureObservation := ⟨"sleep_hours", some 5, 7, Direction.left⟩

/-- A constant record used as a historical sample in witnesses. -/
def sampleSeven : Sample := fun _ => some 7

end Decision

namespace RiskMeter

/-- Example features and trend for the driver-ranking witness. -/
def featSleepLow : Feature := ⟨"sleep_hours", some 5, 7, Direction.left⟩

/-- A second observation of the same feature, closer to the threshold. -/
def featSleepMid : Feature := ⟨"sleep_hours", some 6, 7, Direction.left⟩

/-- A right-direction observation of a different feature. -/
def featScreenHigh : Feature :=
  ⟨"screen_time_hours", some 9, 7, Direction.right⟩

/-- An observation with a missing value, as the evaluator pushes for a
record that lacks the feature. -/
def featSleepMissing : Feature := ⟨"sleep_hours", none, 7, Direction.right⟩

/-- A decreasing trend on sleep, toward risk for a left observation. -/
def trendSleepDown : Trend :=
  ⟨"sleep_hours", some 5, some 6, TrendClass.decreasing, some (-16)⟩

end RiskMeter

namespace Decision

theorem predictWithTree_path_length (t : DecisionNode) (s : Sample) :
    (predictWithTree t s).2.length = splitsVisited t s := by
  induction t with
  | leaf neg pos => simp [predictWithTree, splitsVisited]
  | split f thr l r ihl ihr =>
      by_cases hc : jle (s f) (some thr) = true
      · simp [predictWithTree, splitsVisited, hc, ihl]
        omega
      · simp [predictWithTree, splitsVisited, hc, ihr]
        omega

theorem predictWithTree_score_bounds (t : DecisionNode) (s : Sample)
    (h : wfLeaves t = true) :
    ∃ q, (predictWithTree t s).1 = some q ∧ 0 ≤ q ∧ q ≤ 1 := by
  induction t with
  | leaf neg pos =>
      simp only [wfLeaves, Bool.and_eq_true, decide_eq_true_eq] at h
      obtain ⟨⟨h1, h2⟩, h3⟩ := h
      refine ⟨pos / (neg + pos), ?_, ?_, ?_⟩
      · simp [predictWithTree, jdiv, ne_of_gt h3]
      · exact div_nonneg h2 (le_of_lt h3)
      · exact div_le_one_of_le₀ (le_add_of_nonneg_left h1) (le_of_lt h3)
  | split f thr l r ihl ihr =>
      simp only [wfLeaves, Bool.and_eq_true] at h
      by_cases hc : jle (s f) (some thr) = true
      · simpa [predictWithTree, hc] using ihl h.1
      · simpa [predictWithTree, hc] using ihr h.2

theorem predictWithTree_direction (t : DecisionNode) (s : Sample) :
    ∀ obs ∈ (predictWithTree t s).2, ∀ v, obs.value = some v →
      (obs.direction = Direction.left ↔ v ≤ obs.threshold) := by
  induction t with
  | leaf neg pos => simp [predictWithTree]
  | split f thr l r ihl ihr =>
      intro obs hmem v hv
      by_cases hc : jle (s f) (some thr) = true
      · simp only [predictWithTree, hc, if_true] at hmem
        rcases List.mem_cons.mp hmem with heq | htail
        · subst heq
          simp only at hv
          rw [hv] at hc
          simp only [jle, decide_eq_true_eq] at hc
          simpa using hc
        · exact ihl obs htail v hv
      · simp only [predictWithTree, hc, if_false] at hmem
        rcases List.mem_cons.mp hmem with heq | htail
        · subst heq
          simp only at hv
          rw [hv] at hc
          simp only [jle, decide_eq_true_eq] at hc
          simp [hc]
        · exact ihr obs htail v hv

end Decision

namespace Decision

/-- C1 (amended): for every decision tree whose leaves all carry
nonnegative class counts with a positive sum, and every record,
`predictWithTree` returns a finite score in `[0, 1]` and a path whose
length equals the number of split nodes visited, and every recorded
observation whose value is present has direction `left` exactly when its
value is at most its threshold. -/
theorem predictWithTree_spec (t : DecisionNode) (s : Sample)
    (h : wfLeaves t = true) :
    (∃ q, (predictWithTree t s).1 = some q ∧ 0 ≤ q ∧ q ≤ 1) ∧
    (predictWithTree t s).2.length = splitsVisited t s ∧
    (∀ obs ∈ (predictWithTree t s).2, ∀ v, obs.value = some v →
      (obs.direction = Direction.left ↔ v ≤ obs.threshold)) :=
  ⟨predictWithTree_score_bounds t s h, predictWithTree_path_length t s,
   predictWithTree_direction t s⟩

theorem wfLeaves_model : wfLeaves model = true := by
  simp [wfLeaves, model]
  norm_num

/-- C1 witness: the shipped model is leaf-well-formed, and on the worked
example record the evaluator yields a score in `[0, 1]` with the path
length equal to the splits visited. -/
theorem predictWithTree_spec_witness :
    wfLeaves model = true ∧
    (∃ q, (predictWithTree model sampleExample).1 = some q ∧ 0 ≤ q ∧ q ≤ 1) ∧
    (predictWithTree model sampleExample).2.length =
      splitsVisited model sampleExample :=
  ⟨wfLeaves_model, (predictWithTree_spec model sampleExample wfLeaves_model).1,
   (predictWithTree_spec model sampleExample wfLeaves_model).2.1⟩

/-- C1 counterexample: on the degenerate tree whose single leaf has class
distribution `(0, 0)` — a tree the claim quantifies over — the evaluator
computes `0 / 0`, a non-finite value, so it does not return a score in
`[0, 1]` for any record. -/
theorem predictWithTree_degenerate_leaf_cex :
    ¬ ∃ q : ℚ, (predictWithTree (DecisionNode.leaf 0 0) sampleEmpty).1 = some q ∧
      0 ≤ q ∧ q ≤ 1 := by
  rintro ⟨q, hq, -⟩
  simp [predictWithTree, jdiv] at hq

/-- C2: on the shipped model, the worked example record
(`sleep_hours = 5`, `prodrome_symptoms = 0`, `screen_time_hours = 3`,
`attacks_last_30_days = 2`) traverses exactly the five claimed splits,
all to the left, reaching the leaf with distribution
`[0.9375, 0.0625]`, and scores `0.0625`. -/
theorem model_example_evaluation :
    predictWithTree model sampleExample =
      (some 0.0625,
        [⟨"sleep_hours", some 5, 7.198521375656128, Direction.left⟩,
         ⟨"prodrome_symptoms", some 0, 0.5, Direction.left⟩,
         ⟨"screen_time_hours", some 3, 6.668567180633545, Direction.left⟩,
         ⟨"sleep_hours", some 5, 6.96010160446167, Direction.left⟩,
         ⟨"attacks_last_30_days", some 2, 9.5, Direction.left⟩]) := by
  simp [predictWithTree, model, sampleExample, jle, jdiv]
  norm_num

/-- C6: on a record that lacks every feature, the evaluator does not fail
with a `MissingFeature` error: it silently records `right` directions for
the missing values (because `undefined <= threshold` is false) and still
returns the score `0.75` of the right-most reachable leaf of the shipped
model. -/
theorem model_missing_feature_eval :
    predictWithTree model sampleEmpty =
      (some 0.75,
        [⟨"sleep_hours", none, 7.198521375656128, Direction.right⟩,
         ⟨"sleep_hours", none, 9.695796966552734, Direction.right⟩]) := by
  simp [predictWithTree, model, sampleEmpty, jle, jdiv]
  norm_num

end Decision

namespace Storage

/-- C3: `create` on an id that already exists in a namespace fails with
the duplicate-key error, leaves the database (and in particular the
stored record) unchanged, and so never silently overwrites. -/
theorem create_duplicate_key (db : DB) (ns : String) (id : ℕ)
    (item : StoredItem) (data : Obj) (now : ℕ) (h : db ns id = some item) :
    (create db ns id data now).1 = .error (.duplicateKey ns id) ∧
    (create db ns id data now).2 = db ∧
    (create db ns id data now).2 ns id = some item := by
  simp [create, h]

/-- C3 witness: creating id 1 again in the one-record database fails with
the duplicate-key error and the stored record is untouched. -/
theorem create_duplicate_key_witness :
    dbEx "general" 1 = some ⟨[("a", 1)], 5, 5⟩ ∧
    (create dbEx "general" 1 [("b", 2)] 9).1 =
      .error (.duplicateKey "general" 1) ∧
    (create dbEx "general" 1 [("b", 2)] 9).2 "general" 1 =
      some ⟨[("a", 1)], 5, 5⟩ :=
  ⟨rfl,
   (create_duplicate_key dbEx "general" 1 ⟨[("a", 1)], 5, 5⟩ [("b", 2)] 9 rfl).1,
   (create_duplicate_key dbEx "general" 1 ⟨[("a", 1)], 5, 5⟩ [("b", 2)] 9 rfl).2.2⟩

/-- C4: `update` on an id that does not exist in a namespace fails with
the not-found error and returns the database unchanged, so it never
creates a record. -/
theorem update_not_found (db : DB) (ns : String) (id : ℕ) (patch : Obj)
    (now : ℕ) (h : db ns id = none) :
    update db ns id patch now = (.error (.notFound ns id), db) := by
  simp [update, h]

/-- C4 witness: updating the absent id 2 fails with not-found and leaves
the one-record database unchanged. -/
theorem update_not_found_witness :
    dbEx "general" 2 = none ∧
    update dbEx "general" 2 [("a", 3)] 9 =
      (.error (.notFound "general" 2), dbEx) :=
  ⟨rfl, update_not_found dbEx "general" 2 [("a", 3)] 9 rfl⟩

/-- C5: `upsert` followed immediately by `readData` returns exactly the
upserted payload; and upserting payload `a = 1` at a fresh id at a
nonzero time `t1`, then payload `a = 2` at time `t2`, leaves `readData`
returning the second payload while `createdAt` still equals `t1`, the
value set at the first upsert. (`t1 ≠ 0` reflects that `Date.now()`
epoch timestamps are nonzero: the source preserves `createdAt` through
the JS-falsy `existing?.createdAt || now`.) -/
theorem upsert_readData_roundtrip (db : DB) (ns : String) (id : ℕ)
    (data : Obj) (now t1 t2 : ℕ) :
    readData (upsert db ns id data now) ns id = some data ∧
    (db ns id = none → t1 ≠ 0 →
      readData (upsert (upsert db ns id [("a", 1)] t1) ns id [("a", 2)] t2)
          ns id = some [("a", 2)] ∧
      (read (upsert (upsert db ns id [("a", 1)] t1) ns id [("a", 2)] t2)
          ns id).map (fun it => it.createdAt) = some t1) := by
  constructor
  · simp [readData, read, upsert, dbPut]
  · intro h0 h1
    simp [readData, read, upsert, dbPut, h0, h1]

/-- C5 witness: the round trip and the two-upsert example on the empty
database at times 100 and 200. -/
theorem upsert_readData_roundtrip_witness :
    readData (upsert dbEmpty "general" 1 [("a", 5)] 7) "general" 1 =
      some [("a", 5)] ∧
    readData (upsert (upsert dbEmpty "general" 1 [("a", 1)] 100)
        "general" 1 [("a", 2)] 200) "general" 1 = some [("a", 2)] ∧
    (read (upsert (upsert dbEmpty "general" 1 [("a", 1)] 100)
        "general" 1 [("a", 2)] 200) "general" 1).map
      (fun it => it.createdAt) = some 100 :=
  ⟨(upsert_readData_roundtrip dbEmpty "general" 1 [("a", 5)] 7 100 200).1,
   ((upsert_readData_roundtrip dbEmpty "general" 1 [("a", 5)] 7 100 200).2
     rfl (by decide)).1,
   ((upsert_readData_roundtrip dbEmpty "general" 1 [("a", 5)] 7 100 200).2
     rfl (by decide)).2⟩

end Storage

namespace Decision

theorem insertionDedup_go_nodup (xs : List String) :
    ∀ acc : List String, acc.Nodup →
      (xs.foldl (fun acc x => if x ∈ acc then acc else acc ++ [x]) acc).Nodup := by
  induction xs with
  | nil => intro acc h; simpa using h
  | cons x xs ih =>
      intro acc h
      by_cases hx : x ∈ acc
      · simpa [hx] using ih acc h
      · have h2 : (acc ++ [x]).Nodup := by
          simp [List.nodup_append, h, hx]
        simpa [hx] using ih (acc ++ [x]) h2

theorem insertionDedup_go_mem (xs : List String) :
    ∀ acc y, (y ∈ xs.foldl (fun acc x => if x ∈ acc then acc else acc ++ [x]) acc
      ↔ y ∈ acc ∨ y ∈ xs) := by
  induction xs with
  | nil => intro acc y; simp
  | cons x xs ih =>
      intro acc y
      by_cases hx : x ∈ acc
      · simp only [List.foldl_cons, if_pos hx]
        rw [ih acc y]
        constructor
        · rintro (h | h)
          · exact Or.inl h
          · exact Or.inr (List.mem_cons_of_mem x h)
        · rintro (h | h)
          · exact Or.inl h
          · rcases List.mem_cons.mp h with rfl | h
            · exact Or.inl hx
            · exact Or.inr h
      · simp only [List.foldl_cons, if_neg hx]
        rw [ih (acc ++ [x]) y]
        simp [List.mem_append, or_assoc]

theorem insertionDedup_nodup (xs : List String) : (insertionDedup xs).Nodup :=
  insertionDedup_go_nodup xs [] List.nodup_nil

theorem insertionDedup_mem (xs : List String) (y : String) :
    y ∈ insertionDedup xs ↔ y ∈ xs := by
  have := insertionDedup_go_mem xs [] y
  simpa [insertionDedup] using this

theorem trendFor_feature (c : Sample) (h : List Sample) (f : String) :
    (trendFor c h f).feature = f := by
  simp only [trendFor]
  split <;> rfl

end Decision

namespace Decision

/-- C7 (amended): when the historical window is non-empty,
`calculateTrends` returns exactly one trend per unique feature label of
the path, in first-occurrence order (the labels of the result are the
deduplicated path labels, duplicate-free, and cover exactly the labels
of the path); when the historical window is empty, it returns one trend
per observation, so a duplicated label yields duplicated entries. -/
theorem calculateTrends_labels (c : Sample) (h : List Sample)
    (fs : List FeatureObservation) :
    (h.length = 0 →
      (calculateTrends c h fs).map (fun t => t.feature) =
        fs.map (fun f => f.label)) ∧
    (h.length ≠ 0 →
      (calculateTrends c h fs).map (fun t => t.feature) =
        insertionDedup (fs.map (fun f => f.label)) ∧
      ((calculateTrends c h fs).map (fun t => t.feature)).Nodup ∧
      (∀ l, l ∈ (calculateTrends c h fs).map (fun t => t.feature) ↔
        l ∈ fs.map (fun f => f.label))) := by
  constructor
  · intro h0
    simp only [calculateTrends, if_pos h0, List.map_map]
    rfl
  · intro h0
    have hmain : (calculateTrends c h fs).map (fun t => t.feature) =
        insertionDedup (fs.map (fun f => f.label)) := by
      simp only [calculateTrends, if_neg h0, List.map_map]
      have : ((fun t => t.feature) ∘ trendFor c h) = fun g => g := by
        funext g
        exact trendFor_feature c h g
      rw [this]
      exact List.map_id _
    refine ⟨hmain, ?_, ?_⟩
    · rw [hmain]
      exact insertionDedup_nodup _
    · intro l
      rw [hmain]
      exact insertionDedup_mem _ l

/-- C7 witness: on a record, one historical sample, and a path that
visits `sleep_hours` twice, the non-empty-history branch produces the
single deduplicated label. -/
theorem calculateTrends_labels_witness :
    (calculateTrends sampleEmpty [sampleSeven] [obsSleep, obsSleep]).map
      (fun t => t.feature) = insertionDedup ["sleep_hours", "sleep_hours"] :=
  ((calculateTrends_labels sampleEmpty [sampleSeven] [obsSleep, obsSleep]).2
    (by decide)).1

/-- C7 counterexample: with an empty historical window and a path in
which `sleep_hours` occurs twice, `calculateTrends` returns two entries
for the single unique label, so the result is not one entry per unique
feature label. -/
theorem calculateTrends_dup_label_cex :
    (calculateTrends sampleEmpty [] [obsSleep, obsSleep]).map
      (fun t => t.feature) = ["sleep_hours", "sleep_hours"] ∧
    ¬ ((calculateTrends sampleEmpty [] [obsSleep, obsSleep]).map
      (fun t => t.feature)).Nodup := by
  have h1 : (calculateTrends sampleEmpty [] [obsSleep, obsSleep]).map
      (fun t => t.feature) = ["sleep_hours", "sleep_hours"] := by
    simp [calculateTrends, obsSleep]
  refine ⟨h1, ?_⟩
  rw [h1]
  decide

end Decision

namespace Decision

theorem filterMap_id_map_optionMap (m : ℚ → ℚ) (l : List JNum) :
    (l.map (Option.map m)).filterMap id = (l.filterMap id).map m := by
  induction l with
  | nil => rfl
  | cons a l ih => cases a <;> simp [ih]

theorem sum_map_mul (k : ℚ) (l : List ℚ) :
    (l.map (fun v => k * v)).sum = k * l.sum := by
  induction l with
  | nil => simp
  | cons a l ih => simp [ih, mul_add]

theorem cp_scale (v : JNum) (avg k : ℚ) (hk : 0 < k) (h0 : avg ≠ 0) :
    jmul (jdiv (jsub (v.map (fun x => k * x)) (some (k * avg)))
      (some |k * avg|)) (some 100) =
    jmul (jdiv (jsub v (some avg)) (some |avg|)) (some 100) := by
  cases v with
  | none => rfl
  | some c =>
      have hk0 : k ≠ 0 := ne_of_gt hk
      have h1 : |k * avg| ≠ 0 := abs_ne_zero.mpr (mul_ne_zero hk0 h0)
      have h2 : |avg| ≠ 0 := abs_ne_zero.mpr h0
      show jmul (jdiv (jsub (some (k * c)) (some (k * avg))) (some |k * avg|))
          (some 100) =
        jmul (jdiv (jsub (some c) (some avg)) (some |avg|)) (some 100)
      simp only [jsub, jdiv, jmul, if_neg h1, if_neg h2]
      rw [← mul_sub, abs_mul, abs_of_pos hk, mul_div_mul_left _ _ hk0]

theorem trendFor_scaleAt (cur : Sample) (hist : List Sample) (f g : String)
    (k : ℚ) (hk : 0 < k) :
    ((trendFor (scaleAt f k cur) (hist.map (scaleAt f k)) g).feature,
     (trendFor (scaleAt f k cur) (hist.map (scaleAt f k)) g).trend,
     (trendFor (scaleAt f k cur) (hist.map (scaleAt f k)) g).changePercent) =
    ((trendFor cur hist g).feature, (trendFor cur hist g).trend,
     (trendFor cur hist g).changePercent) := by
  by_cases hgf : g = f
  · subst hgf
    have hcur : scaleAt g k cur g = (cur g).map (fun v => k * v) := by
      simp [scaleAt]
    have hv : (hist.map (scaleAt g k)).map (fun h => h g) =
        (hist.map (fun h => h g)).map (Option.map (fun v => k * v)) := by
      rw [List.map_map, List.map_map]
      apply List.map_congr_left
      intro h _
      simp [Function.comp, scaleAt]
    have hfilter : ((hist.map (scaleAt g k)).map (fun h => h g)).filterMap id =
        ((hist.map (fun h => h g)).filterMap id).map (fun v => k * v) := by
      rw [hv, filterMap_id_map_optionMap]
    simp only [trendFor, hfilter, hcur, List.length_map, sum_map_mul]
    set L := (hist.map (fun h => h g)).filterMap id with hLdef
    by_cases hlen : L.length = 0
    · simp only [if_pos hlen]
    · simp only [if_neg hlen]
      rw [mul_div_assoc]
      set avg := L.sum / (L.length : ℚ) with ha
      by_cases havg0 : avg = 0
      · simp [havg0]
      · have hk0 : k ≠ 0 := ne_of_gt hk
        have hkavg : k * avg ≠ 0 := mul_ne_zero hk0 havg0
        simp only [ne_eq, havg0, hkavg, not_false_eq_true, if_true, if_pos]
        rw [cp_scale (cur g) avg k hk havg0]
  · have e2 : (hist.map (scaleAt f k)).map (fun h => h g) =
        hist.map (fun h => h g) := by
      rw [List.map_map]
      apply List.map_congr_left
      intro h _
      simp [Function.comp, scaleAt, hgf]
    have e1 : scaleAt f k cur g = cur g := by simp [scaleAt, hgf]
    have heq : trendFor (scaleAt f k cur) (hist.map (scaleAt f k)) g =
        trendFor cur hist g := by
      simp only [trendFor, e1, e2]
    rw [heq]

end Decision

namespace Decision

/-- C8: with a non-empty historical window, multiplying a feature's
current value and all of its historical values by the same positive
constant leaves every trend's feature label, classification, and
reported `changePercent` unchanged. -/
theorem calculateTrends_scale_invariant (cur : Sample) (hist : List Sample)
    (fs : List FeatureObservation) (f : String) (k : ℚ) (hk : 0 < k)
    (hne : hist ≠ []) :
    (calculateTrends (scaleAt f k cur) (hist.map (scaleAt f k)) fs).map
      (fun t => (t.feature, t.trend, t.changePercent)) =
    (calculateTrends cur hist fs).map
      (fun t => (t.feature, t.trend, t.changePercent)) := by
  have hlen : hist.length ≠ 0 := fun h => hne (List.length_eq_zero.mp h)
  have hlen2 : (hist.map (scaleAt f k)).length ≠ 0 := by
    simpa using hlen
  simp only [calculateTrends, if_neg hlen, if_neg hlen2, List.map_map]
  apply List.map_congr_left
  intro g _
  exact trendFor_scaleAt cur hist f g k hk

/-- C8 witness: scaling `sleep_hours` by 2 on the worked example record
with one historical sample leaves the trend tuple list unchanged. -/
theorem calculateTrends_scale_invariant_witness :
    (calculateTrends (scaleAt "sleep_hours" 2 sampleExample)
        ([sampleSeven].map (scaleAt "sleep_hours" 2)) [obsSleep]).map
      (fun t => (t.feature, t.trend, t.changePercent)) =
    (calculateTrends sampleExample [sampleSeven] [obsSleep]).map
      (fun t => (t.feature, t.trend, t.changePercent)) :=
  calculateTrends_scale_invariant sampleExample [sampleSeven] [obsSleep]
    "sleep_hours" 2 (by norm_num) (List.cons_ne_nil _ _)

end Decision

namespace Decision

theorem generateExplanation_recs_ne_nil (score : JNum)
    (features : List FeatureObservation) (trends : List Trend) :
    (generateExplanation score features trends).recommendations ≠ [] := by
  simp only [generateExplanation]
  split
  · next h => exact List.ne_nil_of_length_pos h
  · next h => simp

/-- C10: `generateExplanation` always returns at least one
recommendation; when no path feature is judged problematic by the
recommendation filter, it returns exactly the single default
recommendation; and consequently the `detailedExplanation` of every
prediction result has a non-empty recommendations list. -/
theorem generateExplanation_default_recommendation (score : JNum)
    (features : List FeatureObservation) (trends : List Trend) :
    (generateExplanation score features trends).recommendations ≠ [] ∧
    ((∀ f ∈ features, recProblematic f = false) →
      (generateExplanation score features trends).recommendations =
        ["Continue monitoring your health metrics"]) ∧
    (∀ (sample : Sample) (historical : List Sample) (includeTrends : Bool),
      (predictMigraneRisk sample historical
        includeTrends).detailedExplanation.recommendations ≠ []) := by
  refine ⟨generateExplanation_recs_ne_nil score features trends, ?_, ?_⟩
  · intro hnone
    have hfilter : features.filter recProblematic = [] := by
      rw [List.filter_eq_nil_iff]
      intro f hf
      simp [hnone f hf]
    simp [generateExplanation, hfilter]
  · intro sample historical includeTrends
    simp only [predictMigraneRisk]
    exact generateExplanation_recs_ne_nil _ _ _

/-- C10 witness: with an empty path no feature is problematic and the
default recommendation is returned. -/
theorem generateExplanation_default_recommendation_witness :
    (generateExplanation (some 0) [] []).recommendations =
      ["Continue monitoring your health metrics"] :=
  (generateExplanation_default_recommendation (some 0) [] []).2.1 (by simp)

end Decision


theorem jle_some_iff (a b : ℚ) : (jle (some a) (some b) = true) ↔ a ≤ b := by
  simp [jle]

theorem jlt_some_iff (a b : ℚ) : (jlt (some a) (some b) = true) ↔ a < b := by
  simp [jlt]

theorem jlt_eq_true_elim (x y : JNum) (h : jlt x y = true) :
    ∃ a b, x = some a ∧ y = some b ∧ a < b := by
  cases x with
  | none => simp [jlt] at h
  | some a =>
      cases y with
      | none => simp [jlt] at h
      | some b =>
          exact ⟨a, b, rfl, rfl, (jlt_some_iff a b).mp h⟩

namespace RiskMeter

theorem jmax_zero_nonneg (x : JNum) (q : ℚ) (h : jmax (some 0) x = some q) :
    0 ≤ q := by
  cases x with
  | none => simp [jmax] at h
  | some y =>
      simp only [jmax, Option.some.injEq] at h
      exact h ▸ le_max_left 0 y

theorem magnitude_some_nonneg (f : Feature) (q : ℚ)
    (h : magnitude f = some q) : 0 ≤ q := by
  rcases f with ⟨l, v, t, dir⟩
  cases dir <;> exact jmax_zero_nonneg _ q h

theorem magnitude_isSome (f : Feature) (h : f.value.isSome = true) :
    ∃ q, magnitude f = some q := by
  rcases f with ⟨l, v, t, dir⟩
  obtain ⟨w, rfl⟩ := Option.isSome_iff_exists.mp h
  have hsafe : (max 0.1 |if t = 0 then 0.1 else t| : ℚ) ≠ 0 :=
    ne_of_gt (lt_of_lt_of_le (by norm_num) (le_max_left _ _))
  cases dir <;>
    · simp only [magnitude, jsub, jdiv, jmax, if_neg hsafe]
      exact ⟨_, rfl⟩

theorem magnitude_mk_eq (l : String) (f : Feature) :
    magnitude ⟨l, f.value, f.threshold, f.direction⟩ = magnitude f := by
  cases f with
  | mk l2 v t dir => cases dir <;> rfl

theorem trendWeight_pos (t : Option Trend) (dir : Direction) :
    0 < trendWeight t dir := by
  unfold trendWeight
  cases t with
  | none => norm_num
  | some tr =>
      simp only
      split <;> split <;> try split
      all_goals norm_num

theorem foldr_jmax_some (b : ℚ) (l : List JNum)
    (h : ∀ x ∈ l, ∃ q, x = some q) :
    ∃ M, l.foldr jmax (some b) = some M ∧ b ≤ M := by
  induction l with
  | nil => exact ⟨b, rfl, le_refl b⟩
  | cons x l ih =>
      have ih2 := ih (fun y hy => h y (List.mem_cons_of_mem x hy))
      obtain ⟨q, rfl⟩ := h x (List.mem_cons_self x l)
      obtain ⟨M, hM, hbM⟩ := ih2
      refine ⟨max q M, ?_, le_trans hbM (le_max_right q M)⟩
      simp [List.foldr_cons, hM, jmax]

theorem insertDesc_perm (d : Driver) (l : List Driver) :
    (insertDesc d l).Perm (d :: l) := by
  induction l with
  | nil => simp [insertDesc]
  | cons e es ih =>
      by_cases hc : jlt e.score d.score = true
      · simp [insertDesc, hc]
      · simp only [insertDesc, if_neg hc]
        exact (ih.cons e).trans (List.Perm.swap d e es)

theorem sortDesc_perm (l : List Driver) : (sortDesc l).Perm l := by
  induction l with
  | nil => simp [sortDesc]
  | cons d l ih =>
      have h1 : (sortDesc (d :: l)) = insertDesc d (sortDesc l) := rfl
      rw [h1]
      exact (insertDesc_perm d (sortDesc l)).trans (ih.cons d)

theorem insertDesc_pairwise_some (d : Driver)
    (hd : ∃ q, d.score = some q) :
    ∀ l : List Driver, (∀ e ∈ l, ∃ q, e.score = some q) →
      l.Pairwise (fun a b => jle b.score a.score = true) →
      (insertDesc d l).Pairwise (fun a b => jle b.score a.score = true) := by
  obtain ⟨qd, hqd⟩ := hd
  intro l
  induction l with
  | nil =>
      intro _ _
      simp [insertDesc]
  | cons e es ih =>
      intro hl h
      obtain ⟨qe, hqe⟩ := hl e (List.mem_cons_self e es)
      rw [List.pairwise_cons] at h
      by_cases hc : jlt e.score d.score = true
      · have hlt : qe < qd := by
          rw [hqe, hqd] at hc
          exact (jlt_some_iff qe qd).mp hc
        rw [insertDesc, if_pos hc, List.pairwise_cons]
        refine ⟨?_, ?_⟩
        · intro b hb
          rcases List.mem_cons.mp hb with rfl | hb2
          · rw [hqe, hqd]
            exact (jle_some_iff _ _).mpr (le_of_lt hlt)
          · obtain ⟨qb, hqb⟩ := hl b (List.mem_cons_of_mem e hb2)
            have h1 := h.1 b hb2
            rw [hqb, hqe] at h1
            rw [hqb, hqd]
            exact (jle_some_iff _ _).mpr
              (le_of_lt (lt_of_le_of_lt ((jle_some_iff _ _).mp h1) hlt))
        · rw [List.pairwise_cons]
          exact h
      · have hge : qd ≤ qe := by
          rw [hqe, hqd] at hc
          exact le_of_not_lt (fun hlt2 => hc ((jlt_some_iff qe qd).mpr hlt2))
        rw [insertDesc, if_neg hc, List.pairwise_cons]
        refine ⟨?_, ?_⟩
        · intro b hb
          have hb2 := (insertDesc_perm d es).mem_iff.mp hb
          rcases List.mem_cons.mp hb2 with rfl | hb3
          · rw [hqd, hqe]
            exact (jle_some_iff _ _).mpr hge
          · exact h.1 b hb3
        · exact ih (fun e2 he2 => hl e2 (List.mem_cons_of_mem e he2)) h.2

theorem sortDesc_pairwise_some :
    ∀ l : List Driver, (∀ e ∈ l, ∃ q, e.score = some q) →
      (sortDesc l).Pairwise (fun a b => jle b.score a.score = true) := by
  intro l
  induction l with
  | nil =>
      intro _
      simp [sortDesc]
  | cons d l ih =>
      intro hl
      have h1 : sortDesc (d :: l) = insertDesc d (sortDesc l) := rfl
      rw [h1]
      refine insertDesc_pairwise_some d (hl d (List.mem_cons_self d l))
        (sortDesc l) ?_ (ih ?_)
      · intro e he
        exact hl e (List.mem_cons_of_mem d ((sortDesc_perm l).subset he))
      · intro e he
        exact hl e (List.mem_cons_of_mem d he)

end RiskMeter

namespace RiskMeter

theorem dedupStep_keys_nodup (m : List (String × Feature × JNum)) (f : Feature)
    (h : (m.map (fun e => e.1)).Nodup) :
    ((dedupStep m f).map (fun e => e.1)).Nodup := by
  rcases hfind : m.find? (fun p => p.1 == f.label) with _ | p
  · have hnot : f.label ∉ m.map (fun e => e.1) := by
      intro hmem
      rcases List.mem_map.mp hmem with ⟨e, he, hek⟩
      have h2 := List.find?_eq_none.mp hfind e he
      simp only [beq_iff_eq] at h2
      exact h2 hek
    simp only [dedupStep, hfind]
    simp [List.nodup_append, h, hnot]
  · simp only [dedupStep, hfind]
    split
    · have hkeys : (m.map
          (fun q => if q.1 = f.label then (f.label, f, magnitude f) else q)).map
            (fun e => e.1) = m.map (fun e => e.1) := by
        rw [List.map_map]
        apply List.map_congr_left
        intro q _
        by_cases hq : q.1 = f.label <;> simp [hq, Function.comp]
      rw [hkeys]
      exact h
    · exact h

theorem dedupFoldl_keys_nodup (fs : List Feature) :
    ∀ m : List (String × Feature × JNum), (m.map (fun e => e.1)).Nodup →
      ((fs.foldl dedupStep m).map (fun e => e.1)).Nodup := by
  induction fs with
  | nil => intro m h; simpa using h
  | cons f fs ih =>
      intro m h
      simp only [List.foldl_cons]
      exact ih _ (dedupStep_keys_nodup m f h)

theorem dedupFeatures_keys_nodup (fs : List Feature) :
    ((dedupFeatures fs).map (fun e => e.1)).Nodup :=
  dedupFoldl_keys_nodup fs [] (by simp)

theorem dedupStep_entry (m : List (String × Feature × JNum)) (f : Feature)
    (h : ∀ e ∈ m, e.2.1.label = e.1 ∧ e.2.2 = magnitude e.2.1) :
    ∀ e ∈ dedupStep m f, e.2.1.label = e.1 ∧ e.2.2 = magnitude e.2.1 := by
  intro e he
  rcases hfind : m.find? (fun p => p.1 == f.label) with _ | p
  · simp only [dedupStep, hfind] at he
    rcases List.mem_append.mp he with he | he
    · exact h e he
    · simp only [List.mem_singleton] at he
      subst he
      constructor <;> rfl
  · simp only [dedupStep, hfind] at he
    split at he
    · rcases List.mem_map.mp he with ⟨q, hq, rfl⟩
      by_cases hqf : q.1 = f.label
      · simp [if_pos hqf]
      · simp only [if_neg hqf]
        exact h q hq
    · exact h e he

theorem dedupFoldl_entry (fs : List Feature) :
    ∀ m : List (String × Feature × JNum),
      (∀ e ∈ m, e.2.1.label = e.1 ∧ e.2.2 = magnitude e.2.1) →
      ∀ e ∈ fs.foldl dedupStep m, e.2.1.label = e.1 ∧ e.2.2 = magnitude e.2.1 := by
  induction fs with
  | nil => intro m h; simpa using h
  | cons f fs ih =>
      intro m h
      simp only [List.foldl_cons]
      exact ih _ (dedupStep_entry m f h)

theorem dedupFeatures_entry (fs : List Feature) :
    ∀ e ∈ dedupFeatures fs, e.2.1.label = e.1 ∧ e.2.2 = magnitude e.2.1 :=
  dedupFoldl_entry fs [] (by simp)

theorem dedupStep_mag_some (m : List (String × Feature × JNum)) (f : Feature)
    (hm : ∀ e ∈ m, ∃ q, e.2.2 = some q) (hf : ∃ q, magnitude f = some q) :
    ∀ e ∈ dedupStep m f, ∃ q, e.2.2 = some q := by
  intro e he
  rcases hfind : m.find? (fun p => p.1 == f.label) with _ | p
  · simp only [dedupStep, hfind] at he
    rcases List.mem_append.mp he with he | he
    · exact hm e he
    · simp only [List.mem_singleton] at he
      subst he
      exact hf
  · simp only [dedupStep, hfind] at he
    split at he
    · rcases List.mem_map.mp he with ⟨q2, hq2, rfl⟩
      by_cases hqf : q2.1 = f.label
      · simp only [if_pos hqf]
        exact hf
      · simp only [if_neg hqf]
        exact hm q2 hq2
    · exact hm e he

theorem dedupFoldl_mag_some (fs : List Feature) :
    ∀ m : List (String × Feature × JNum),
      (∀ e ∈ m, ∃ q, e.2.2 = some q) →
      (∀ f ∈ fs, ∃ q, magnitude f = some q) →
      ∀ e ∈ fs.foldl dedupStep m, ∃ q, e.2.2 = some q := by
  induction fs with
  | nil => intro m h _; simpa using h
  | cons f fs ih =>
      intro m h hall
      simp only [List.foldl_cons]
      exact ih _ (dedupStep_mag_some m f h (hall f (List.mem_cons_self f fs)))
        (fun f2 hf2 => hall f2 (List.mem_cons_of_mem f hf2))

theorem dedupFeatures_mag_some (fs : List Feature)
    (hall : ∀ f ∈ fs, ∃ q, magnitude f = some q) :
    ∀ e ∈ dedupFeatures fs, ∃ q, e.2.2 = some q :=
  dedupFoldl_mag_some fs [] (by simp) hall

theorem dedupStep_R (m : List (String × Feature × JNum)) (f : Feature)
    (k : String) (v : ℚ)
    (hR : (∃ e ∈ m, e.1 = k) ∧
      (∀ e ∈ m, e.1 = k → ∃ q, e.2.2 = some q ∧ v ≤ q)) :
    (∃ e ∈ dedupStep m f, e.1 = k) ∧
      (∀ e ∈ dedupStep m f, e.1 = k → ∃ q, e.2.2 = some q ∧ v ≤ q) := by
  obtain ⟨⟨w, hw, hwk⟩, hub⟩ := hR
  rcases hfind : m.find? (fun p => p.1 == f.label) with _ | p
  · have hkne : k ≠ f.label := by
      intro hk
      have h2 := List.find?_eq_none.mp hfind w hw
      simp only [beq_iff_eq] at h2
      exact h2 (hwk.trans hk)
    constructor
    · exact ⟨w, by simp only [dedupStep, hfind]; exact List.mem_append_left _ hw,
        hwk⟩
    · intro e he hek
      simp only [dedupStep, hfind] at he
      rcases List.mem_append.mp he with he | he
      · exact hub e he hek
      · simp only [List.mem_singleton] at he
        subst he
        exact absurd hek.symm hkne
  · have hp := List.mem_of_find?_eq_some hfind
    have hpk : p.1 = f.label := by
      have h2 := List.find?_some hfind
      simpa using h2
    simp only [dedupStep, hfind]
    split
    · next hlt =>
      constructor
      · refine ⟨if w.1 = f.label then (f.label, f, magnitude f) else w,
          List.mem_map.mpr ⟨w, hw, rfl⟩, ?_⟩
        by_cases hwf : w.1 = f.label
        · simp only [if_pos hwf]
          exact (hwf.symm.trans hwk :)
        · simp only [if_neg hwf]
          exact hwk
      · intro e he hek
        rcases List.mem_map.mp he with ⟨q, hq, rfl⟩
        by_cases hqf : q.1 = f.label
        · simp only [if_pos hqf] at hek ⊢
          obtain ⟨qp, hqp, hvqp⟩ := hub p hp (hpk.trans hek)
          obtain ⟨a, b2, ha, hb, hab⟩ := jlt_eq_true_elim _ _ hlt
          rw [hqp] at ha
          have haq : a = qp := by
            have := ha.symm
            simpa using this
          exact ⟨b2, hb, le_of_lt (lt_of_le_of_lt (haq ▸ hvqp) hab)⟩
        · simp only [if_neg hqf] at hek ⊢
          exact hub q hq hek
    · exact ⟨⟨w, hw, hwk⟩, hub⟩

theorem dedupFoldl_R (fs : List Feature) :
    ∀ (m : List (String × Feature × JNum)) (k : String) (v : ℚ),
      ((∃ e ∈ m, e.1 = k) ∧
        (∀ e ∈ m, e.1 = k → ∃ q, e.2.2 = some q ∧ v ≤ q)) →
      ((∃ e ∈ fs.foldl dedupStep m, e.1 = k) ∧
        (∀ e ∈ fs.foldl dedupStep m, e.1 = k →
          ∃ q, e.2.2 = some q ∧ v ≤ q)) := by
  induction fs with
  | nil => intro m k v h; simpa using h
  | cons f fs ih =>
      intro m k v h
      simp only [List.foldl_cons]
      exact ih _ k v (dedupStep_R m f k v h)

theorem dedupStep_self (m : List (String × Feature × JNum)) (f : Feature)
    (hnodup : (m.map (fun e => e.1)).Nodup)
    (hmag : ∀ e ∈ m, ∃ q, e.2.2 = some q)
    (qf : ℚ) (hf : magnitude f = some qf) :
    (∃ e ∈ dedupStep m f, e.1 = f.label) ∧
      (∀ e ∈ dedupStep m f, e.1 = f.label →
        ∃ q, e.2.2 = some q ∧ qf ≤ q) := by
  rcases hfind : m.find? (fun p => p.1 == f.label) with _ | p
  · constructor
    · exact ⟨(f.label, f, magnitude f),
        by simp only [dedupStep, hfind]; exact List.mem_append_right _ (by simp),
        rfl⟩
    · intro e he hek
      simp only [dedupStep, hfind] at he
      rcases List.mem_append.mp he with he | he
      · have h2 := List.find?_eq_none.mp hfind e he
        simp only [beq_iff_eq] at h2
        exact absurd hek h2
      · simp only [List.mem_singleton] at he
        subst he
        exact ⟨qf, hf, le_refl qf⟩
  · have hp := List.mem_of_find?_eq_some hfind
    have hpk : p.1 = f.label := by
      have h2 := List.find?_some hfind
      simpa using h2
    simp only [dedupStep, hfind]
    split
    · next hlt =>
      constructor
      · exact ⟨(f.label, f, magnitude f),
          List.mem_map.mpr ⟨p, hp, by simp [hpk]⟩, rfl⟩
      · intro e he hek
        rcases List.mem_map.mp he with ⟨q, hq, rfl⟩
        by_cases hqf : q.1 = f.label
        · simp only [if_pos hqf]
          exact ⟨qf, hf, le_refl qf⟩
        · simp only [if_neg hqf] at hek
          exact absurd hek hqf
    · next hge =>
      constructor
      · exact ⟨p, hp, hpk⟩
      · intro e he hek
        have heq : e = p :=
          List.inj_on_of_nodup_map hnodup he hp (hek.trans hpk.symm)
        obtain ⟨qp, hqp⟩ := hmag p hp
        refine ⟨qp, heq ▸ hqp, ?_⟩
        rw [hqp, hf] at hge
        exact le_of_not_lt (fun h2 => hge ((jlt_some_iff qp qf).mpr h2))

theorem dedupFoldl_dominates (fs : List Feature) :
    ∀ m : List (String × Feature × JNum), (m.map (fun e => e.1)).Nodup →
      (∀ e ∈ m, ∃ q, e.2.2 = some q) →
      (∀ f ∈ fs, ∃ q, magnitude f = some q) →
      ∀ e ∈ fs.foldl dedupStep m, ∀ g ∈ fs, g.label = e.1 →
        ∀ qg, magnitude g = some qg → ∃ qe, e.2.2 = some qe ∧ qg ≤ qe := by
  induction fs with
  | nil =>
      intro m _ _ _ e _ g hg
      simp at hg
  | cons f fs ih =>
      intro m hnodup hmag hall e he g hg hge qg hqg
      simp only [List.foldl_cons] at he
      rcases List.mem_cons.mp hg with rfl | hg2
      · have h1 := dedupStep_self m g hnodup hmag qg hqg
        have h2 := dedupFoldl_R fs (dedupStep m g) g.label qg h1
        exact h2.2 e he hge.symm
      · exact ih (dedupStep m f) (dedupStep_keys_nodup m f hnodup)
          (dedupStep_mag_some m f hmag (hall f (List.mem_cons_self f fs)))
          (fun f2 hf2 => hall f2 (List.mem_cons_of_mem f hf2)) e he g hg2 hge
          qg hqg

theorem dedupFeatures_dominates (fs : List Feature)
    (hall : ∀ f ∈ fs, ∃ q, magnitude f = some q) :
    ∀ e ∈ dedupFeatures fs, ∀ g ∈ fs, g.label = e.1 →
      ∀ qg, magnitude g = some qg → ∃ qe, e.2.2 = some qe ∧ qg ≤ qe :=
  dedupFoldl_dominates fs [] (by simp) (by simp) hall

end RiskMeter

namespace RiskMeter

/-- C9 (amended): `computeTopDrivers` always returns at most 3 drivers
with at most one entry per feature label; when every observation in the
list carries a present numeric value, additionally every driver's
normalized score is a finite number in `[0, 1]`, the drivers are sorted
in descending score order, and each driver's kept magnitude dominates
every same-labelled observation's magnitude. -/
theorem computeTopDrivers_spec (fs : List Feature) (ts : List Trend) :
    (computeTopDrivers fs ts).length ≤ 3 ∧
    ((computeTopDrivers fs ts).map (fun d => d.label)).Nodup ∧
    ((∀ f ∈ fs, f.value.isSome = true) →
      (∀ d ∈ computeTopDrivers fs ts,
        ∃ q, d.score = some q ∧ 0 ≤ q ∧ q ≤ 1) ∧
      (computeTopDrivers fs ts).Pairwise
        (fun a b => jle b.score a.score = true) ∧
      (∀ d ∈ computeTopDrivers fs ts, ∀ g ∈ fs, g.label = d.label →
        jle (magnitude g)
          (magnitude ⟨d.label, d.current, d.threshold, d.direction⟩) = true)) := by
  by_cases hfs : fs.length = 0
  · simp [computeTopDrivers, hfs]
  · simp only [computeTopDrivers, if_neg hfs]
    set m := dedupFeatures fs with hm
    set drivers := m.map (driverOf ts) with hdrv
    set maxRaw := (drivers.map (fun d => d.rawScore)).foldr jmax
      (some 0.000001) with hmr
    set normalized := drivers.map
      (fun d => { d with score := jmin (some 1) (jdiv d.rawScore maxRaw) })
      with hnr
    have hlabels : normalized.map (fun d => d.label) = m.map (fun e => e.1) := by
      rw [hnr, hdrv, List.map_map, List.map_map]
      rfl
    have hnodup_norm : (normalized.map (fun d => d.label)).Nodup := by
      rw [hlabels, hm]
      exact dedupFeatures_keys_nodup fs
    refine ⟨?_, ?_, ?_⟩
    · exact List.length_take_le 3 _
    · have hsortnodup : ((sortDesc normalized).map (fun d => d.label)).Nodup :=
        ((sortDesc_perm normalized).map (fun d => d.label)).nodup_iff.mpr
          hnodup_norm
      rw [List.map_take]
      exact List.Nodup.sublist (List.take_sublist _ _) hsortnodup
    · intro hall
      have hallmag : ∀ f ∈ fs, ∃ q, magnitude f = some q :=
        fun f hf => magnitude_isSome f (hall f hf)
      have hmagsome : ∀ e ∈ m, ∃ q2, e.2.2 = some q2 := by
        rw [hm]
        exact dedupFeatures_mag_some fs hallmag
      have hent : ∀ e ∈ m, e.2.1.label = e.1 ∧ e.2.2 = magnitude e.2.1 := by
        rw [hm]
        exact dedupFeatures_entry fs
      have hraws : ∀ d ∈ drivers, ∃ q2, d.rawScore = some q2 ∧ 0 ≤ q2 := by
        intro d hd
        rw [hdrv] at hd
        rcases List.mem_map.mp hd with ⟨e, he, rfl⟩
        obtain ⟨qm, hqm⟩ := hmagsome e he
        have hmag_eq : magnitude e.2.1 = some qm := by
          rw [← (hent e he).2]
          exact hqm
        refine ⟨qm * trendWeight (ts.find? (fun tr => tr.feature == e.1))
          e.2.1.direction, ?_, ?_⟩
        · show jmul (magnitude e.2.1)
            (some (trendWeight (ts.find? (fun tr => tr.feature == e.1))
              e.2.1.direction)) = some _
          rw [hmag_eq]
          rfl
        · exact mul_nonneg (magnitude_some_nonneg e.2.1 qm hmag_eq)
            (le_of_lt (trendWeight_pos _ _))
      obtain ⟨M, hMdef, hMb⟩ := foldr_jmax_some 0.000001
        (drivers.map (fun d => d.rawScore)) (by
          intro x hx
          rcases List.mem_map.mp hx with ⟨d, hd, rfl⟩
          obtain ⟨q2, hq2, -⟩ := hraws d hd
          exact ⟨q2, hq2⟩)
      have hMr : maxRaw = some M := by
        rw [hmr]
        exact hMdef
      have hMpos : (0 : ℚ) < M := lt_of_lt_of_le (by norm_num) hMb
      have hscores : ∀ d ∈ normalized,
          ∃ q2, d.score = some q2 ∧ 0 ≤ q2 ∧ q2 ≤ 1 := by
        intro d hd
        rw [hnr] at hd
        rcases List.mem_map.mp hd with ⟨d0, hd0, rfl⟩
        obtain ⟨qr, hqr, hqr0⟩ := hraws d0 hd0
        refine ⟨min 1 (qr / M), ?_, ?_, ?_⟩
        · show jmin (some 1) (jdiv d0.rawScore maxRaw) = some _
          rw [hqr, hMr]
          simp [jdiv, jmin, ne_of_gt hMpos]
        · exact le_min (by norm_num) (div_nonneg hqr0 (le_of_lt hMpos))
        · exact min_le_left _ _
      refine ⟨?_, ?_, ?_⟩
      · intro d hd
        have hd2 : d ∈ sortDesc normalized := (List.take_sublist _ _).subset hd
        exact hscores d ((sortDesc_perm normalized).subset hd2)
      · refine List.Pairwise.sublist (List.take_sublist _ _)
          (sortDesc_pairwise_some normalized ?_)
        intro e he
        obtain ⟨q2, hq2, -, -⟩ := hscores e he
        exact ⟨q2, hq2⟩
      · intro d hd g hg hlab
        have hd2 : d ∈ sortDesc normalized := (List.take_sublist _ _).subset hd
        have hd3 : d ∈ normalized := (sortDesc_perm normalized).subset hd2
        rw [hnr] at hd3
        rcases List.mem_map.mp hd3 with ⟨d0, hd0, rfl⟩
        rw [hdrv] at hd0
        rcases List.mem_map.mp hd0 with ⟨e, he, rfl⟩
        have hem : e ∈ dedupFeatures fs := by
          rw [hm] at he
          exact he
        obtain ⟨qg, hqg⟩ := hallmag g hg
        obtain ⟨qe, hqe, hle⟩ :=
          dedupFeatures_dominates fs hallmag e hem g hg hlab qg hqg
        have hmagd : magnitude
            (⟨e.1, e.2.1.value, e.2.1.threshold, e.2.1.direction⟩ : Feature) =
            some qe := by
          rw [magnitude_mk_eq, ← (dedupFeatures_entry fs e hem).2]
          exact hqe
        show jle (magnitude g)
          (magnitude ⟨e.1, e.2.1.value, e.2.1.threshold, e.2.1.direction⟩) = true
        rw [hqg, hmagd]
        exact (jle_some_iff qg qe).mpr hle

theorem computeTopDrivers_nan_eval :
    computeTopDrivers [featSleepMissing] [] =
      [⟨"sleep_hours", none, 7, Direction.right, none, none, none⟩] := by
  simp [computeTopDrivers, dedupFeatures, dedupStep, driverOf, sortDesc,
    insertDesc, magnitude, trendWeight, featSleepMissing, jsub, jdiv, jmax,
    jmin, jmul, jlt]

/-- C9 counterexample: on the single observation the evaluator pushes
for a missing `sleep_hours` field (value `undefined`, direction `right`)
the source computes `Math.max(0, NaN) = NaN` as the magnitude, NaN
poisons `maxRaw`, and the returned driver's normalized score is NaN —
not a number in `[0, 1]` — so the claim fails over its stated domain. -/
theorem computeTopDrivers_nan_cex :
    (computeTopDrivers [featSleepMissing] []).map (fun d => d.score) =
      [none] ∧
    ¬ (∀ d ∈ computeTopDrivers [featSleepMissing] [],
        ∃ q : ℚ, d.score = some q ∧ 0 ≤ q ∧ q ≤ 1) := by
  refine ⟨by rw [computeTopDrivers_nan_eval]; rfl, ?_⟩
  intro hcl
  obtain ⟨q, hq, -⟩ := hcl _ (by
    rw [computeTopDrivers_nan_eval]
    exact List.mem_singleton.mpr rfl)
  simp at hq

theorem computeTopDrivers_single_eval :
    computeTopDrivers [featSleepLow] [] =
      [⟨"sleep_hours", some 5, 7, Direction.left, some 1, some (2 / 7),
        none⟩] := by
  simp [computeTopDrivers, dedupFeatures, dedupStep, driverOf, sortDesc,
    insertDesc, magnitude, trendWeight, featSleepLow, jsub, jdiv, jmax,
    jmin, jmul, jlt]
  norm_num

/-- C9 witness: on a single present-valued sleep observation the ranking
returns one driver with normalized score 1 in `[0, 1]`, and its kept
magnitude dominates the observation's. -/
theorem computeTopDrivers_spec_witness :
    (computeTopDrivers [featSleepLow] []).length ≤ 3 ∧
    (∃ q, (⟨"sleep_hours", some 5, 7, Direction.left, some 1, some (2 / 7),
      none⟩ : Driver).score = some q ∧ 0 ≤ q ∧ q ≤ 1) ∧
    jle (magnitude featSleepLow)
      (magnitude ⟨"sleep_hours", some 5, 7, Direction.left⟩) = true := by
  have h := computeTopDrivers_spec [featSleepLow] []
  have hall : ∀ f ∈ [featSleepLow], f.value.isSome = true := by
    intro f hf
    rw [List.mem_singleton] at hf
    subst hf
    rfl
  have h3 := h.2.2 hall
  have hmem : (⟨"sleep_hours", some 5, 7, Direction.left, some 1, some (2 / 7),
      none⟩ : Driver) ∈ computeTopDrivers [featSleepLow] [] := by
    rw [computeTopDrivers_single_eval]
    exact List.mem_singleton.mpr rfl
  exact ⟨h.1, h3.1 _ hmem,
    h3.2.2 _ hmem featSleepLow (List.mem_singleton.mpr rfl) rfl⟩

end RiskMeter
